import Mathlib

/-!
Verification of the trie index engine of the recipe-search application.

The source program (src/gui.py) stores the trie as a nested Python dict:
each node maps single characters to child nodes, and the reserved key
"__ids__" (when present) maps to the collection of document identifiers of
the token that ends at that node.  Here a node is a constructor carrying

  * `ids : Option (List Nat)` — `none` models the "__ids__" key being
    absent, `some l` models it being present with payload `l`.  The
    position of the "__ids__" key inside the Python dict is irrelevant to
    every operation (the suggestion walk filters it out of the child
    iteration and the membership check only tests its presence), so it is
    modelled separately from the children.  `_create_trie_from_csv` keeps
    the payload as a Python set and sorts it on serialization; the variant
    in src/test_gui_popup.py keeps a duplicate-free list.  Every query
    only tests presence of the key, so the payload is modelled as the
    duplicate-free insertion-ordered list.
  * `children : List (Char × Trie)` — the character-keyed entries of the
    dict in insertion order (Python dicts preserve insertion order, and
    the suggestion walk iterates them in that order).

Strings are modelled as `List Char` (`Word`), matching the per-character
iteration of the Python code; `str.lower` is modelled by
`List.map Char.toLower`, `str.strip` by `pyStrip`, and `str.split` with a
one-character separator (the program always uses ";") by `pySplit`.
-/

abbrev Word := List Char

inductive Trie : Type where
  | node (ids : Option (List Nat)) (children : List (Char × Trie))

def Trie.empty : Trie := .node none []

def Trie.ids : Trie → Option (List Nat)
  | .node i _ => i

def Trie.children : Trie → List (Char × Trie)
  | .node _ cs => cs

/-- Python membership test `"__ids__" in node`. -/
def Trie.hasIds (t : Trie) : Bool := t.ids.isSome

/-- Python truthiness test `not node` on the dict: the dict is falsy iff it has no key at
all, i.e. no child and no "__ids__" entry. -/
def Trie.isEmptyTrie : Trie → Bool
  | .node none [] => true
  | _ => false

/-- Python dict lookup `node[char]` / membership `char in node` restricted
to the character keys. -/
def lookupChild : List (Char × Trie) → Char → Option Trie
  | [], _ => none
  | (c', u) :: rest, c => if c' = c then some u else lookupChild rest c

def Trie.findChild (t : Trie) (c : Char) : Option Trie :=
  lookupChild t.children c

/-- Python `node.setdefault(char, dict())` followed by applying `f` to the child:
updates the entry in place when the key is present, otherwise appends a
fresh entry at the end of the dict (Python dict insertion order). -/
def updChildren (cs : List (Char × Trie)) (c : Char) (f : Trie → Trie) :
    List (Char × Trie) :=
  match cs with
  | [] => [(c, f Trie.empty)]
  | (c', u) :: rest =>
    if c' = c then (c', f u) :: rest else (c', u) :: updChildren rest c f

/-- Python `node.setdefault("__ids__", set()).add(doc_id)`: create the identifier
collection when missing, and add the identifier idempotently. -/
def addId (ids : Option (List Nat)) (i : Nat) : Option (List Nat) :=
  match ids with
  | none => some [i]
  | some l => some (if i ∈ l then l else l ++ [i])

/-- The insertion loop of `_create_trie_from_csv` for a single word:
walk the trie creating missing children, then record the identifier at
the final node. -/
def Trie.insert (t : Trie) (w : Word) (i : Nat) : Trie :=
  match t, w with
  | .node ids cs, [] => .node (addId ids i) cs
  | .node ids cs, c :: w' => .node ids (updChildren cs c (fun u => u.insert w' i))

/-- The character-by-character descent shared by both query operations:
follow `w` from `t`, failing as soon as a character has no child. -/
def Trie.lookupPath (t : Trie) (w : Word) : Option Trie :=
  match w with
  | [] => some t
  | c :: w' =>
    match t.findChild c with
    | none => none
    | some u => u.lookupPath w'

/-- The walk of `is_valid_ingredient` after its guard: descend along `w`
and test the terminal marker at the final node. -/
def isMemberWord (t : Trie) (w : Word) : Bool :=
  match t.lookupPath w with
  | some u => u.hasIds
  | none => false

/-- Model of `TrieHandler.is_valid_ingredient` (src/gui.py lines 154-162): reject
the empty word and the empty trie, lower-case the argument (the source
does not strip it), walk it, and require the "__ids__" marker at the
final node. -/
def isValidIngredient (t : Trie) (w : Word) : Bool :=
  if w.isEmpty || t.isEmptyTrie then false
  else isMemberWord t (w.map Char.toLower)

/-- Python `str.strip()`: drop leading and trailing whitespace. -/
def pyStrip (w : Word) : Word :=
  ((w.dropWhile Char.isWhitespace).reverse.dropWhile Char.isWhitespace).reverse

/-- Python `str.split(sep)` for a one-character separator: split at every
occurrence, keeping empty pieces (`"".split(";") == [""]`). -/
def pySplit (sep : Char) : Word → List Word
  | [] => [[]]
  | c :: rest =>
    if c = sep then [] :: pySplit sep rest
    else
      match pySplit sep rest with
      | [] => [[c]]
      | w :: ws => (c :: w) :: ws

/-- The tokens a single corpus cell contributes during build
(`_create_trie_from_csv` lines 64 and 70): the whole cell is lower-cased
(`df[data_col].str.lower()`), split on the separator, each piece is
stripped, and empty pieces are discarded. -/
def rowTokens (sep : Char) (cell : Word) : List Word :=
  ((pySplit sep (cell.map Char.toLower)).map pyStrip).filter (fun w => !w.isEmpty)

/-- One iteration of the build loop over `zip(doc_ids, items_data)`:
insert every token of the row's cell with the row's identifier. -/
def insertRow (t : Trie) (sep : Char) (row : Nat × Word) : Trie :=
  (rowTokens sep row.2).foldl (fun acc w => acc.insert w row.1) t

/-- The Build Operation of `_create_trie_from_csv`: fold the insertion
loop over the corpus rows, starting from the empty root.  A corpus row is
an (identifier, raw cell) pair; `pd.read_csv(...).dropna()` means only
rows with both fields present reach the loop, so the row list models the
valid rows. -/
def buildTrie (sep : Char) (rows : List (Nat × Word)) : Trie :=
  rows.foldl (fun acc r => insertRow acc sep r) Trie.empty

/-- All (token, identifier) insertions performed during build, in order. -/
def buildPairs (sep : Char) (rows : List (Nat × Word)) : List (Word × Nat) :=
  rows.flatMap (fun r => (rowTokens sep r.2).map (fun w => (w, r.1)))

/-- All tokens produced during build (cell values split on the separator,
lower-cased, stripped, and non-empty). -/
def buildTokens (sep : Char) (rows : List (Nat × Word)) : List Word :=
  rows.flatMap (fun r => rowTokens sep r.2)

/-! ### The suggestion walk (`TrieHandler.get_suggestions`) -/

mutual
/-- Number of nodes of a trie (used only as the termination measure of
the suggestion loop). -/
def Trie.size : Trie → Nat
  | .node _ cs => 1 + childrenSize cs
def childrenSize : List (Char × Trie) → Nat
  | [] => 0
  | (_, u) :: rest => u.size + childrenSize rest
end

/-- Combined size of the tries sitting on the explicit DFS stack; the
termination measure of the `while` loop. -/
def stackWeight : List (Trie × Word) → Nat
  | [] => 0
  | (t, _) :: rest => t.size + stackWeight rest

theorem stackWeight_append (l₁ l₂ : List (Trie × Word)) :
    stackWeight (l₁ ++ l₂) = stackWeight l₁ + stackWeight l₂ := by
  induction l₁ with
  | nil => simp [stackWeight]
  | cons e rest ih =>
    obtain ⟨t, w⟩ := e
    simp [stackWeight, ih]
    omega

theorem stackWeight_childEntries (w : Word) (cs : List (Char × Trie)) :
    stackWeight (cs.map (fun p => (p.2, w ++ [p.1]))) = childrenSize cs := by
  induction cs with
  | nil => simp [stackWeight, childrenSize]
  | cons p rest ih =>
    obtain ⟨c, u⟩ := p
    simp [stackWeight, childrenSize, ih]

theorem stackWeight_children_lt (t : Trie) (w : Word) :
    stackWeight (t.children.map (fun p => (p.2, w ++ [p.1]))) < t.size := by
  obtain ⟨ids, cs⟩ := t
  rw [stackWeight_childEntries]
  simp [Trie.children, Trie.size]

theorem suggestLoopDec (t : Trie) (w : Word) (rest : List (Trie × Word)) :
    stackWeight ((t.children.map (fun p => (p.2, w ++ [p.1]))) ++ rest) <
      stackWeight ((t, w) :: rest) := by
  rw [stackWeight_append]
  have h := stackWeight_children_lt t w
  simp [stackWeight]
  omega

/-- The `while stack and len(results) < limit` loop of `get_suggestions`
(src/gui.py lines 145-151), with the head of the list as the top of the
stack.  Python pushes the children in `reversed` dict order and pops from
the end, which is the same as prepending the children in dict order and
popping from the front.  The "__ids__" key is skipped by the `char !=
"__ids__"` test; in this model the children list never contains it. -/
def suggestLoop (limit : Nat) (stack : List (Trie × Word)) (results : List Word) :
    List Word :=
  match stack with
  | [] => results
  | (t, w) :: rest =>
    if results.length < limit then
      suggestLoop limit
        ((t.children.map (fun p => (p.2, w ++ [p.1]))) ++ rest)
        (if t.hasIds then results ++ [w] else results)
    else results
termination_by stackWeight stack
decreasing_by
  exact suggestLoopDec _ _ _

/-- Model of `TrieHandler.get_suggestions` (src/gui.py lines 133-152): empty prefix
or empty trie yields `[]`; otherwise lower-case the prefix, descend along
it (returning `[]` if a character is missing) and run the bounded
depth-first enumeration from the node reached.  The Python default for
`limit` is 5; it is kept explicit here. -/
def getSuggestions (t : Trie) (pre : Word) (limit : Nat) : List Word :=
  if pre.isEmpty || t.isEmptyTrie then []
  else
    match t.lookupPath (pre.map Char.toLower) with
    | none => []
    | some n => suggestLoop limit [(n, pre.map Char.toLower)] []

/-! ### Persistence: the serialized JSON form and the load gate

`_create_trie_from_csv` writes the trie dict as JSON (`orjson.dumps` /
`json.dump`); `TrieHandler._load_or_generate` reads it back with
`orjson.loads` / `json.load`.  The fragment of JSON that the persisted
format uses is an object tree whose leaves are arrays of integers (the
identifier lists).  In the written file the "__ids__" entry sits wherever
it was inserted into the dict; its position does not affect any query, and
the canonical serialization below emits it first. -/

inductive Json : Type where
  | num (n : Nat)
  | arr (ns : List Nat)
  | obj (entries : List (String × Json))

def idsEntries : Option (List Nat) → List (String × Json)
  | none => []
  | some l => [("__ids__", Json.arr l)]

mutual
/-- The JSON value written for a trie node: the optional "__ids__" entry
followed by one single-character-keyed entry per child, in dict order. -/
def serializeTrie : Trie → Json
  | .node ids cs => .obj (idsEntries ids ++ serializeChildren cs)
def serializeChildren : List (Char × Trie) → List (String × Json)
  | [] => []
  | (c, t) :: rest => (String.mk [c], serializeTrie t) :: serializeChildren rest
end

/-- Combine the "__ids__" entry's value with the parse of the remaining
entries: the value must be an array of integers and the marker must not
already have been seen. -/
def stepIds (v : Json) (tailRes : Option (Option (List Nat) × List (Char × Trie))) :
    Option (Option (List Nat) × List (Char × Trie)) :=
  match v, tailRes with
  | .arr l, some (none, cs) => some (some l, cs)
  | _, _ => none

/-- Combine an ordinary entry (whose key must be a single character and
whose value must parse as a node) with the parse of the remaining
entries. -/
def stepChild (s : String) (hd : Option Trie)
    (tailRes : Option (Option (List Nat) × List (Char × Trie))) :
    Option (Option (List Nat) × List (Char × Trie)) :=
  match s.data, hd, tailRes with
  | [c], some t, some (ids, cs) => some (ids, (c, t) :: cs)
  | _, _, _ => none

mutual
/-- Interpret a loaded JSON value as a trie node: the "__ids__" entry (at
most once, an array of integers) gives the terminal marker, every other
entry must have a single-character key and a node value. -/
def parseTrie : Json → Option Trie
  | .obj es => (parseEntries es).map (fun p => Trie.node p.1 p.2)
  | _ => none
def parseEntries : List (String × Json) → Option (Option (List Nat) × List (Char × Trie))
  | [] => some (none, [])
  | (s, v) :: rest =>
    if s = "__ids__" then stepIds v (parseEntries rest)
    else stepChild s (parseTrie v) (parseEntries rest)
end

/-- Abstract state of the persisted trie file as `_load_or_generate`
observes it: missing, present but failing JSON deserialization, or
present and deserializing successfully.  Every file this program writes
holds `serializeTrie` of the trie it built (see
`serialization_roundtrip_queries`), so a successfully-parsed file is
identified with the trie it denotes. -/
inductive FileContent : Type where
  | absent
  | corrupt
  | stored (t : Trie)

/-- Outcome of the load/build entry point: the in-memory root, whether the
corpus CSV was read, and whether a persisted file was written. -/
structure LoadResult where
  root : Trie
  readCorpus : Bool
  wrote : Bool

/-- Model of `TrieHandler._load_or_generate` (src/gui.py lines 104-131).  The
`persistedMtime` and `corpusMtime` arguments are the modification times of
the two files; the source never reads either of them (it only calls
`os.path.exists` on the persisted path), which is exactly what the
definition reflects.  `corpus = some rows` models `source_csv`, `id_col`
and `data_col` all being provided and the CSV holding `rows`; `none`
models the generation arguments being absent.  The three branches of the
source: an existing file is loaded (an exception during deserialization
leaves the empty trie: `self.root = {}`); a missing file triggers
`_create_trie_from_csv`, which reads the corpus and writes the new file;
otherwise the trie stays empty. -/
def loadOrGenerate (persisted : FileContent) (_persistedMtime _corpusMtime : Nat)
    (corpus : Option (List (Nat × Word))) (sep : Char) : LoadResult :=
  match persisted with
  | .stored t => ⟨t, false, false⟩
  | .corrupt => ⟨Trie.empty, false, false⟩
  | .absent =>
    match corpus with
    | some rows => ⟨buildTrie sep rows, true, true⟩
    | none => ⟨Trie.empty, false, false⟩

/-! ### Normalization lemmas -/

theorem charToLowerIdem (c : Char) : c.toLower.toLower = c.toLower := by
  simp only [Char.toLower]
  by_cases h : c.toNat ≥ 65 ∧ c.toNat ≤ 90
  · rw [if_pos h]
    have hv : (c.toNat + 32).isValidChar := Or.inl (by omega)
    have ht : (Char.ofNat (c.toNat + 32)).toNat = c.toNat + 32 := by
      rw [Char.ofNat, dif_pos hv]
      rfl
    rw [ht, if_neg (by omega)]
  · rw [if_neg h, if_neg h]

theorem mapToLowerIdem (w : Word) :
    (w.map Char.toLower).map Char.toLower = w.map Char.toLower := by
  rw [List.map_map]
  exact List.map_congr_left (fun a _ => charToLowerIdem a)

theorem pySplitChars (sep : Char) :
    ∀ (l : Word), ∀ w ∈ pySplit sep l, ∀ c ∈ w, c ∈ l := by
  intro l
  induction l with
  | nil =>
    intro w hw c hc
    simp only [pySplit, List.mem_singleton] at hw
    subst hw
    simp at hc
  | cons a rest ih =>
    intro w hw c hc
    simp only [pySplit] at hw
    by_cases ha : a = sep
    · rw [if_pos ha] at hw
      rcases List.mem_cons.1 hw with rfl | hw'
      · simp at hc
      · exact List.mem_cons_of_mem a (ih w hw' c hc)
    · rw [if_neg ha] at hw
      cases hsp : pySplit sep rest with
      | nil =>
        rw [hsp] at hw
        simp only [List.mem_singleton] at hw
        subst hw
        rcases List.mem_singleton.1 hc with rfl
        exact List.mem_cons_self _ _
      | cons w1 ws =>
        rw [hsp] at hw
        rcases List.mem_cons.1 hw with rfl | hw'
        · rcases List.mem_cons.1 hc with rfl | hc'
          · exact List.mem_cons_self _ _
          · have hw1 : w1 ∈ pySplit sep rest := by rw [hsp]; exact List.mem_cons_self w1 ws
            exact List.mem_cons_of_mem a (ih w1 hw1 c hc')
        · have hmem : w ∈ pySplit sep rest := by rw [hsp]; exact List.mem_cons_of_mem w1 hw'
          exact List.mem_cons_of_mem a (ih w hmem c hc)

theorem pyStripSubset (w : Word) : ∀ c ∈ pyStrip w, c ∈ w := by
  intro c hc
  unfold pyStrip at hc
  rw [List.mem_reverse] at hc
  have hc2 := List.dropWhile_subset _ hc
  rw [List.mem_reverse] at hc2
  exact List.dropWhile_subset _ hc2

/-- Every token produced during build is already lower-case: lower-casing
it again changes nothing. -/
theorem mem_rowTokens_lower (sep : Char) (cell : Word) (t : Word)
    (h : t ∈ rowTokens sep cell) : t.map Char.toLower = t := by
  unfold rowTokens at h
  rcases List.mem_filter.1 h with ⟨h1, _⟩
  rcases List.mem_map.1 h1 with ⟨piece, hp, rfl⟩
  have key : ∀ c ∈ pyStrip piece, Char.toLower c = c := by
    intro c hc
    have hcell : c ∈ cell.map Char.toLower :=
      pySplitChars sep _ piece hp c (pyStripSubset piece c hc)
    rcases List.mem_map.1 hcell with ⟨x, _, rfl⟩
    exact charToLowerIdem x
  calc (pyStrip piece).map Char.toLower
      = (pyStrip piece).map id := List.map_congr_left key
    _ = pyStrip piece := List.map_id _

theorem mem_rowTokens_ne_nil (sep : Char) (cell : Word) (t : Word)
    (h : t ∈ rowTokens sep cell) : t ≠ [] := by
  unfold rowTokens at h
  rcases List.mem_filter.1 h with ⟨_, h2⟩
  simpa using h2

theorem mem_buildTokens_lower (sep : Char) (rows : List (Nat × Word)) (t : Word)
    (h : t ∈ buildTokens sep rows) : t.map Char.toLower = t := by
  rcases List.mem_flatMap.1 h with ⟨r, _, ht⟩
  exact mem_rowTokens_lower sep r.2 t ht

theorem mem_buildTokens_ne_nil (sep : Char) (rows : List (Nat × Word)) (t : Word)
    (h : t ∈ buildTokens sep rows) : t ≠ [] := by
  rcases List.mem_flatMap.1 h with ⟨r, _, ht⟩
  exact mem_rowTokens_ne_nil sep r.2 t ht

/-! ### Membership after insertion -/

theorem isMemberWord_nil (t : Trie) : isMemberWord t [] = t.hasIds := rfl

theorem isMemberWord_cons (t : Trie) (c : Char) (w : Word) :
    isMemberWord t (c :: w) =
      match t.findChild c with
      | none => false
      | some u => isMemberWord u w := by
  cases h : t.findChild c <;> simp [isMemberWord, Trie.lookupPath, h]

theorem isMemberWord_empty (w : Word) : isMemberWord Trie.empty w = false := by
  cases w with
  | nil => rfl
  | cons c w' =>
    rw [isMemberWord_cons]
    rfl

theorem lookupChild_updChildren (cs : List (Char × Trie)) (c c' : Char) (f : Trie → Trie) :
    lookupChild (updChildren cs c f) c' =
      if c' = c then some (f ((lookupChild cs c).getD Trie.empty))
      else lookupChild cs c' := by
  induction cs with
  | nil =>
    by_cases h : c' = c
    · subst h
      simp [updChildren, lookupChild]
    · have h2 : ¬ c = c' := fun hh => h hh.symm
      simp [updChildren, lookupChild, h, h2]
  | cons p rest ih =>
    obtain ⟨a, u⟩ := p
    simp only [updChildren]
    by_cases hac : a = c
    · rw [if_pos hac]
      subst hac
      by_cases h : c' = a
      · subst h
        simp [lookupChild]
      · have h2 : ¬ a = c' := fun hh => h hh.symm
        simp [lookupChild, h, h2]
    · rw [if_neg hac]
      by_cases h : c' = a
      · subst h
        simp [lookupChild, hac]
      · have h2 : ¬ a = c' := fun hh => h hh.symm
        simp only [lookupChild, if_neg h2, if_neg hac]
        exact ih

theorem mem_insert (w : Word) : ∀ (t : Trie) (i : Nat) (w' : Word),
    isMemberWord (t.insert w i) w' = true ↔ (w' = w ∨ isMemberWord t w' = true) := by
  induction w with
  | nil =>
    intro t i w'
    obtain ⟨ids, cs⟩ := t
    cases w' with
    | nil =>
      rw [isMemberWord_nil]
      show (Trie.node (addId ids i) cs).hasIds = true ↔ _
      cases ids <;> simp [Trie.hasIds, Trie.ids, addId, isMemberWord_nil]
    | cons c rest =>
      show isMemberWord (Trie.node (addId ids i) cs) (c :: rest) = true ↔ _
      rw [isMemberWord_cons, isMemberWord_cons]
      simp only [Trie.findChild, Trie.children]
      simp
  | cons c w2 ih =>
    intro t i w'
    obtain ⟨ids, cs⟩ := t
    cases w' with
    | nil =>
      show isMemberWord (Trie.node ids (updChildren cs c _)) [] = true ↔ _
      rw [isMemberWord_nil, isMemberWord_nil]
      simp [Trie.hasIds, Trie.ids]
    | cons c' w2' =>
      show isMemberWord (Trie.node ids (updChildren cs c _)) (c' :: w2') = true ↔ _
      rw [isMemberWord_cons, isMemberWord_cons]
      simp only [Trie.findChild, Trie.children]
      rw [lookupChild_updChildren]
      by_cases h : c' = c
      · subst h
        rw [if_pos rfl]
        cases hl : lookupChild cs c' with
        | none =>
          simp only [Option.getD_none]
          rw [ih]
          simp [isMemberWord_empty]
        | some u =>
          simp only [Option.getD_some]
          rw [ih]
          simp
      · rw [if_neg h]
        cases hl : lookupChild cs c' <;> simp [h]

theorem foldl_insert_mem (ps : List (Word × Nat)) : ∀ (t : Trie) (w : Word),
    isMemberWord (ps.foldl (fun a p => a.insert p.1 p.2) t) w = true ↔
      ((∃ p ∈ ps, p.1 = w) ∨ isMemberWord t w = true) := by
  induction ps with
  | nil => simp
  | cons p rest ih =>
    intro t w
    rw [List.foldl_cons, ih, mem_insert]
    constructor
    · rintro (⟨q, hq, hqw⟩ | rfl | h)
      · exact Or.inl ⟨q, List.mem_cons_of_mem p hq, hqw⟩
      · exact Or.inl ⟨p, List.mem_cons_self p rest, rfl⟩
      · exact Or.inr h
    · rintro (⟨q, hq, hqw⟩ | h)
      · rcases List.mem_cons.1 hq with rfl | hq'
        · exact Or.inr (Or.inl hqw.symm)
        · exact Or.inl ⟨q, hq', hqw⟩
      · exact Or.inr (Or.inr h)

/-! ### Characterization of the built trie -/

theorem buildTrie_eq_foldl (sep : Char) (rows : List (Nat × Word)) :
    buildTrie sep rows =
      (buildPairs sep rows).foldl (fun a p => a.insert p.1 p.2) Trie.empty := by
  suffices h : ∀ t, rows.foldl (fun acc r => insertRow acc sep r) t
      = (buildPairs sep rows).foldl (fun a p => a.insert p.1 p.2) t from h _
  induction rows with
  | nil => intro t; simp [buildPairs]
  | cons r rest ih =>
    intro t
    have hrow : insertRow t sep r =
        ((rowTokens sep r.2).map (fun w => (w, r.1))).foldl
          (fun a p => a.insert p.1 p.2) t := by
      rw [List.foldl_map]
      rfl
    simp only [List.foldl_cons, buildPairs, List.flatMap_cons, List.foldl_append]
    rw [← hrow]
    exact ih _

theorem buildPairs_map_fst (sep : Char) (rows : List (Nat × Word)) :
    (buildPairs sep rows).map Prod.fst = buildTokens sep rows := by
  simp only [buildPairs, buildTokens, List.map_flatMap, List.map_map]
  refine congrArg _ (funext fun r => ?_)
  have h : (Prod.fst ∘ fun w : Word => (w, r.1)) = id := rfl
  rw [h, List.map_id]

/-- The membership walk of a built trie answers exactly "is this one of
the tokens produced during build". -/
theorem buildTrie_mem (sep : Char) (rows : List (Nat × Word)) (w : Word) :
    isMemberWord (buildTrie sep rows) w = true ↔ w ∈ buildTokens sep rows := by
  rw [buildTrie_eq_foldl, foldl_insert_mem]
  rw [isMemberWord_empty]
  rw [← buildPairs_map_fst]
  simp [List.mem_map]

theorem updChildren_ne_nil (cs : List (Char × Trie)) (c : Char) (f : Trie → Trie) :
    updChildren cs c f ≠ [] := by
  cases cs with
  | nil => simp [updChildren]
  | cons p rest =>
    obtain ⟨a, u⟩ := p
    by_cases h : a = c <;> simp [updChildren, h]

theorem insert_isEmptyTrie (t : Trie) (w : Word) (i : Nat) :
    (t.insert w i).isEmptyTrie = false := by
  obtain ⟨ids, cs⟩ := t
  cases w with
  | nil => cases ids <;> rfl
  | cons c w' =>
    show (Trie.node ids (updChildren cs c _)).isEmptyTrie = false
    cases hcs : updChildren cs c (fun u => u.insert w' i) with
    | nil => exact absurd hcs (updChildren_ne_nil cs c _)
    | cons a l => cases ids <;> rfl

theorem foldl_insert_isEmpty (ps : List (Word × Nat)) (t : Trie) :
    (ps.foldl (fun a p => a.insert p.1 p.2) t).isEmptyTrie = true ↔
      (ps = [] ∧ t.isEmptyTrie = true) := by
  rcases List.eq_nil_or_concat ps with rfl | ⟨qs, q, rfl⟩
  · simp
  · rw [List.concat_eq_append, List.foldl_append]
    simp [insert_isEmptyTrie]

/-- A built trie is the empty dict exactly when the corpus produced no
token at all. -/
theorem buildTrie_isEmpty (sep : Char) (rows : List (Nat × Word)) :
    (buildTrie sep rows).isEmptyTrie = true ↔ buildTokens sep rows = [] := by
  rw [buildTrie_eq_foldl, foldl_insert_isEmpty]
  have he : Trie.empty.isEmptyTrie = true := rfl
  rw [← buildPairs_map_fst]
  simp [he, List.map_eq_nil_iff]

/-! ### Invariant of built tries: duplicate-free, lower-case child keys

A Python dict cannot hold the same key twice, and the build only creates
edges for characters of lower-cased cells; both facts are needed to relate
the child enumeration of the suggestion walk back to dict lookup. -/

inductive Trie.WF : Trie → Prop where
  | mk (ids : Option (List Nat)) (cs : List (Char × Trie))
      (hkeys : (cs.map Prod.fst).Nodup)
      (hlow : ∀ p ∈ cs, p.1.toLower = p.1)
      (hwf : ∀ p ∈ cs, WF p.2) : WF (.node ids cs)

theorem wf_empty : Trie.empty.WF := by
  refine .mk none [] ?_ ?_ ?_ <;> simp

theorem wf_keys {ids : Option (List Nat)} {cs : List (Char × Trie)}
    (h : (Trie.node ids cs).WF) : (cs.map Prod.fst).Nodup := by
  cases h with
  | mk _ _ hkeys _ _ => exact hkeys

theorem wf_lowKeys {ids : Option (List Nat)} {cs : List (Char × Trie)}
    (h : (Trie.node ids cs).WF) : ∀ p ∈ cs, p.1.toLower = p.1 := by
  cases h with
  | mk _ _ _ hlow _ => exact hlow

theorem wf_child {ids : Option (List Nat)} {cs : List (Char × Trie)}
    (h : (Trie.node ids cs).WF) : ∀ p ∈ cs, p.2.WF := by
  cases h with
  | mk _ _ _ _ hwf => exact hwf

theorem lookupChild_mem (cs : List (Char × Trie)) (c : Char) (u : Trie)
    (h : lookupChild cs c = some u) : (c, u) ∈ cs := by
  induction cs with
  | nil => simp [lookupChild] at h
  | cons p rest ih =>
    obtain ⟨a, v⟩ := p
    by_cases hac : a = c
    · subst hac
      rw [lookupChild, if_pos rfl] at h
      injection h with h2
      subst h2
      exact List.mem_cons_self _ _
    · rw [lookupChild, if_neg hac] at h
      exact List.mem_cons_of_mem _ (ih h)

theorem lookupChild_eq_of_mem (cs : List (Char × Trie)) (c : Char) (u : Trie)
    (hnd : (cs.map Prod.fst).Nodup) (h : (c, u) ∈ cs) :
    lookupChild cs c = some u := by
  induction cs with
  | nil => simp at h
  | cons p rest ih =>
    obtain ⟨a, v⟩ := p
    rw [List.map_cons, List.nodup_cons] at hnd
    rcases List.mem_cons.1 h with heq | hmem
    · rcases Prod.mk.injEq .. ▸ heq with ⟨rfl, rfl⟩
      rw [lookupChild, if_pos rfl]
    · by_cases hac : a = c
      · subst hac
        exact absurd (List.mem_map.2 ⟨(a, u), hmem, rfl⟩) hnd.1
      · rw [lookupChild, if_neg hac]
        exact ih hnd.2 hmem

theorem wf_lookupPath (t : Trie) (w : Word) (n : Trie)
    (hwf : t.WF) (h : t.lookupPath w = some n) : n.WF := by
  induction w generalizing t with
  | nil =>
    rw [Trie.lookupPath] at h
    injection h with h2
    subst h2
    exact hwf
  | cons c w' ih =>
    rw [Trie.lookupPath] at h
    cases hf : t.findChild c with
    | none => rw [hf] at h; exact absurd h (by simp)
    | some u =>
      rw [hf] at h
      obtain ⟨ids, cs⟩ := t
      have hu : (c, u) ∈ cs := lookupChild_mem cs c u hf
      exact ih u (wf_child hwf _ hu) h

theorem updChildren_keys (cs : List (Char × Trie)) (c : Char) (f : Trie → Trie) :
    (updChildren cs c f).map Prod.fst =
      if c ∈ cs.map Prod.fst then cs.map Prod.fst else cs.map Prod.fst ++ [c] := by
  induction cs with
  | nil => simp [updChildren]
  | cons p rest ih =>
    obtain ⟨a, u⟩ := p
    by_cases hac : a = c
    · subst hac
      simp [updChildren]
    · have hca : ¬ c = a := fun hh => hac hh.symm
      simp only [updChildren, if_neg hac, List.map_cons, List.mem_cons]
      rw [ih]
      by_cases hmem : c ∈ rest.map Prod.fst
      · rw [if_pos hmem, if_pos (Or.inr hmem)]
      · rw [if_neg hmem, if_neg (by rintro (h | h); exact hca h; exact hmem h)]
        simp

theorem mem_updChildren (cs : List (Char × Trie)) (c : Char) (f : Trie → Trie) :
    ∀ q ∈ updChildren cs c f, q ∈ cs ∨
      (∃ u, q = (c, f u) ∧ (lookupChild cs c = some u ∨ u = Trie.empty)) := by
  induction cs with
  | nil =>
    intro q hq
    rcases List.mem_singleton.1 hq with rfl
    exact Or.inr ⟨Trie.empty, rfl, Or.inr rfl⟩
  | cons p rest ih =>
    obtain ⟨a, u'⟩ := p
    intro q hq
    by_cases hac : a = c
    · subst hac
      rw [updChildren, if_pos rfl] at hq
      rcases List.mem_cons.1 hq with rfl | hmem
      · exact Or.inr ⟨u', rfl, Or.inl (by rw [lookupChild, if_pos rfl])⟩
      · exact Or.inl (List.mem_cons_of_mem _ hmem)
    · rw [updChildren, if_neg hac] at hq
      rcases List.mem_cons.1 hq with rfl | hmem
      · exact Or.inl (List.mem_cons_self _ _)
      · rcases ih q hmem with hin | ⟨v, rfl, hv⟩
        · exact Or.inl (List.mem_cons_of_mem _ hin)
        · refine Or.inr ⟨v, rfl, ?_⟩
          rcases hv with hv | hv
          · exact Or.inl (by rw [lookupChild, if_neg hac]; exact hv)
          · exact Or.inr hv

/-- Inserting an already-lower-case word preserves the invariant. -/
theorem insert_wf (w : Word) : ∀ (t : Trie) (i : Nat),
    t.WF → w.map Char.toLower = w → (t.insert w i).WF := by
  induction w with
  | nil =>
    intro t i hwf _
    obtain ⟨ids, cs⟩ := t
    exact .mk _ _ (wf_keys hwf) (wf_lowKeys hwf) (wf_child hwf)
  | cons c w' ih =>
    intro t i hwf hlow
    obtain ⟨ids, cs⟩ := t
    rw [List.map_cons, List.cons.injEq] at hlow
    obtain ⟨hc, hw'⟩ := hlow
    refine .mk ids (updChildren cs c (fun u => u.insert w' i)) ?_ ?_ ?_
    · rw [updChildren_keys]
      by_cases hmem : c ∈ cs.map Prod.fst
      · rw [if_pos hmem]; exact wf_keys hwf
      · rw [if_neg hmem]
        have hperm : List.Perm ((cs.map Prod.fst) ++ [c]) (c :: cs.map Prod.fst) :=
          List.perm_append_singleton c _
        rw [hperm.nodup_iff, List.nodup_cons]
        exact ⟨hmem, wf_keys hwf⟩
    · intro p hp
      rcases mem_updChildren cs c _ p hp with hin | ⟨u, rfl, _⟩
      · exact wf_lowKeys hwf p hin
      · exact hc
    · intro p hp
      rcases mem_updChildren cs c _ p hp with hin | ⟨u, rfl, hu⟩
      · exact wf_child hwf p hin
      · rcases hu with hu | rfl
        · exact ih u i (wf_child hwf _ (lookupChild_mem cs c u hu)) hw'
        · exact ih Trie.empty i wf_empty hw'

theorem foldl_insert_wf (ps : List (Word × Nat)) : ∀ (t : Trie),
    t.WF → (∀ p ∈ ps, p.1.map Char.toLower = p.1) →
    (ps.foldl (fun a p => a.insert p.1 p.2) t).WF := by
  induction ps with
  | nil => intro t h _; simpa using h
  | cons q qs ih =>
    intro t h hall
    rw [List.foldl_cons]
    exact ih _ (insert_wf q.1 t q.2 h (hall q (List.mem_cons_self _ _)))
      (fun p hp => hall p (List.mem_cons_of_mem _ hp))

/-- The trie produced by the build operation satisfies the invariant. -/
theorem buildTrie_wf (sep : Char) (rows : List (Nat × Word)) :
    (buildTrie sep rows).WF := by
  rw [buildTrie_eq_foldl]
  refine foldl_insert_wf _ _ wf_empty ?_
  intro p hp
  have hmem : p.1 ∈ buildTokens sep rows := by
    rw [← buildPairs_map_fst]
    exact List.mem_map.2 ⟨p, hp, rfl⟩
  exact mem_buildTokens_lower sep rows p.1 hmem

/-! ### Facts about the suggestion loop -/

theorem suggestLoop_extends (limit : Nat) :
    ∀ (stack : List (Trie × Word)) (results : List Word),
      results <+: suggestLoop limit stack results := by
  refine suggestLoop.induct limit
    (fun stack results => results <+: suggestLoop limit stack results) ?_ ?_ ?_
  · intro results
    rw [suggestLoop]
  · intro results t w rest hlt ih
    rw [suggestLoop, if_pos hlt]
    by_cases h : t.hasIds = true
    · rw [dif_pos h] at ih
      rw [if_pos h]
      exact List.IsPrefix.trans ⟨[w], rfl⟩ ih
    · rw [dif_neg h] at ih
      rw [if_neg h]
      exact ih
  · intro results t w rest hlt
    rw [suggestLoop, if_neg hlt]

theorem suggestLoop_length (limit : Nat) :
    ∀ (stack : List (Trie × Word)) (results : List Word),
      results.length ≤ limit → (suggestLoop limit stack results).length ≤ limit := by
  refine suggestLoop.induct limit
    (fun stack results => results.length ≤ limit →
      (suggestLoop limit stack results).length ≤ limit) ?_ ?_ ?_
  · intro results h
    rw [suggestLoop]
    exact h
  · intro results t w rest hlt ih h
    rw [suggestLoop, if_pos hlt]
    by_cases hh : t.hasIds = true
    · rw [dif_pos hh] at ih
      rw [if_pos hh]
      refine ih ?_
      rw [List.length_append]
      simp only [List.length_singleton]
      omega
    · rw [dif_neg hh] at ih
      rw [if_neg hh]
      exact ih h
  · intro results t w rest hlt h
    rw [suggestLoop, if_neg hlt]
    exact h

theorem lookupPath_append (t : Trie) (w : Word) (c : Char) :
    t.lookupPath (w ++ [c]) = (t.lookupPath w).bind (fun n => n.findChild c) := by
  induction w generalizing t with
  | nil =>
    cases h : t.findChild c <;> simp [Trie.lookupPath, h]
  | cons a w' ih =>
    rw [List.cons_append, Trie.lookupPath]
    cases h : t.findChild a with
    | none => simp [Trie.lookupPath, h]
    | some u => simp [Trie.lookupPath, h, ih]

theorem suggestLoop_sound (t₀ : Trie) (hwf : t₀.WF) (q : Word) (limit : Nat) :
    ∀ (stack : List (Trie × Word)) (results : List Word),
      (∀ e ∈ stack, t₀.lookupPath e.2 = some e.1 ∧ q <+: e.2 ∧ e.2.map Char.toLower = e.2) →
      (∀ r ∈ results, q <+: r ∧ isMemberWord t₀ r = true ∧ r.map Char.toLower = r) →
      ∀ r ∈ suggestLoop limit stack results,
        q <+: r ∧ isMemberWord t₀ r = true ∧ r.map Char.toLower = r := by
  refine suggestLoop.induct limit (fun stack results =>
      (∀ e ∈ stack, t₀.lookupPath e.2 = some e.1 ∧ q <+: e.2 ∧ e.2.map Char.toLower = e.2) →
      (∀ r ∈ results, q <+: r ∧ isMemberWord t₀ r = true ∧ r.map Char.toLower = r) →
      ∀ r ∈ suggestLoop limit stack results,
        q <+: r ∧ isMemberWord t₀ r = true ∧ r.map Char.toLower = r) ?_ ?_ ?_
  · intro results hstack hres r hr
    rw [suggestLoop] at hr
    exact hres r hr
  · intro results t w rest hlt ih hstack hres r hr
    rw [suggestLoop, if_pos hlt] at hr
    obtain ⟨hpath, hq, hlow⟩ := hstack (t, w) (List.mem_cons_self _ _)
    have htwf : t.WF := wf_lookupPath t₀ w t hwf hpath
    have hstack' : ∀ e ∈ (t.children.map (fun p => (p.2, w ++ [p.1]))) ++ rest,
        t₀.lookupPath e.2 = some e.1 ∧ q <+: e.2 ∧ e.2.map Char.toLower = e.2 := by
      intro e he
      rcases List.mem_append.1 he with hmap | hrest
      · rcases List.mem_map.1 hmap with ⟨p, hp, rfl⟩
        obtain ⟨c, u⟩ := p
        obtain ⟨ids, cs⟩ := t
        have hfind : (Trie.node ids cs).findChild c = some u := by
          show lookupChild cs c = some u
          exact lookupChild_eq_of_mem cs c u (wf_keys htwf) hp
        refine ⟨?_, ?_, ?_⟩
        · rw [lookupPath_append, hpath]
          simpa using hfind
        · exact hq.trans ⟨[c], rfl⟩
        · rw [List.map_append, hlow]
          have hcl : Char.toLower c = c := wf_lowKeys htwf (c, u) hp
          simp [hcl]
      · exact hstack e (List.mem_cons_of_mem _ hrest)
    have hres' : ∀ r ∈ (if t.hasIds then results ++ [w] else results),
        q <+: r ∧ isMemberWord t₀ r = true ∧ r.map Char.toLower = r := by
      by_cases hh : t.hasIds = true
      · rw [if_pos hh]
        intro r hrr
        rcases List.mem_append.1 hrr with h1 | h2
        · exact hres r h1
        · rcases List.mem_singleton.1 h2 with rfl
          refine ⟨hq, ?_, hlow⟩
          unfold isMemberWord
          rw [hpath]
          exact hh
      · rw [if_neg hh]
        exact hres
    by_cases hh : t.hasIds = true
    · rw [dif_pos hh] at ih
      rw [if_pos hh] at hr hres'
      exact ih hstack' hres' r hr
    · rw [dif_neg hh] at ih
      rw [if_neg hh] at hr hres'
      exact ih hstack' hres' r hr
  · intro results t w rest hlt hstack hres r hr
    rw [suggestLoop, if_neg hlt] at hr
    exact hres r hr

/-! ### Serialization round-trip -/

mutual
/-- Structural induction for the nested `Trie` type. -/
def trieRecAux {P : Trie → Prop} {Q : List (Char × Trie) → Prop}
    (hnode : ∀ ids cs, Q cs → P (.node ids cs))
    (hnil : Q [])
    (hcons : ∀ c t rest, P t → Q rest → Q ((c, t) :: rest)) :
    ∀ t, P t
  | .node ids cs => hnode ids cs (childrenRecAux hnode hnil hcons cs)
def childrenRecAux {P : Trie → Prop} {Q : List (Char × Trie) → Prop}
    (hnode : ∀ ids cs, Q cs → P (.node ids cs))
    (hnil : Q [])
    (hcons : ∀ c t rest, P t → Q rest → Q ((c, t) :: rest)) :
    ∀ cs, Q cs
  | [] => hnil
  | (c, t) :: rest =>
    hcons c t rest (trieRecAux hnode hnil hcons t) (childrenRecAux hnode hnil hcons rest)
end

theorem idsKey_ne_singleton (c : Char) : String.mk [c] ≠ "__ids__" := by
  intro h
  have h2 : ([c] : List Char) = "__ids__".data := congrArg String.data h
  have h3 : ([c] : List Char).length = "__ids__".data.length := congrArg List.length h2
  rw [show "__ids__".data.length = 7 from rfl] at h3
  simp at h3

theorem rtNil : parseEntries (serializeChildren []) = some (none, []) := by
  rw [serializeChildren, parseEntries]

theorem rtCons (c : Char) (t : Trie) (rest : List (Char × Trie))
    (hP : parseTrie (serializeTrie t) = some t)
    (hQ : parseEntries (serializeChildren rest) = some (none, rest)) :
    parseEntries (serializeChildren ((c, t) :: rest)) = some (none, (c, t) :: rest) := by
  rw [serializeChildren, parseEntries, if_neg (idsKey_ne_singleton c), hP, hQ]
  rfl

theorem rtNode (ids : Option (List Nat)) (cs : List (Char × Trie))
    (hQ : parseEntries (serializeChildren cs) = some (none, cs)) :
    parseTrie (serializeTrie (.node ids cs)) = some (.node ids cs) := by
  cases ids with
  | none =>
    rw [serializeTrie, idsEntries, List.nil_append, parseTrie, hQ]
    rfl
  | some l =>
    rw [serializeTrie, idsEntries, List.cons_append, List.nil_append, parseTrie,
      parseEntries, if_pos rfl, hQ]
    rfl

theorem parseTrie_serializeTrie : ∀ t, parseTrie (serializeTrie t) = some t :=
  trieRecAux rtNode rtNil rtCons

/-! ### Claim theorems -/

theorem boolOfIff {a b : Bool} (h : (a = true) ↔ (b = true)) : a = b := by
  cases a <;> cases b <;> simp_all

/-- C1: every token produced during build (a cell value split on the
separator, lower-cased, stripped, and non-empty) satisfies the exact
membership check `is_member`, both on the trie returned by the build
operation and on the trie obtained by loading the persisted (serialized)
form of that build. -/
theorem build_tokens_are_members (sep : Char) (rows : List (Nat × Word)) (t : Word)
    (h : t ∈ buildTokens sep rows) :
    isValidIngredient (buildTrie sep rows) t = true ∧
    isValidIngredient ((parseTrie (serializeTrie (buildTrie sep rows))).getD Trie.empty)
      t = true := by
  have hne : t ≠ [] := mem_buildTokens_ne_nil sep rows t h
  have hlow : t.map Char.toLower = t := mem_buildTokens_lower sep rows t h
  have hmem : isMemberWord (buildTrie sep rows) t = true := (buildTrie_mem sep rows t).2 h
  have hval : isValidIngredient (buildTrie sep rows) t = true := by
    rw [isValidIngredient]
    have hempty : (buildTrie sep rows).isEmptyTrie = false := by
      cases hb : (buildTrie sep rows).isEmptyTrie
      · rfl
      · have htok := (buildTrie_isEmpty sep rows).1 hb
        rw [htok] at h
        simp at h
    have hwne : t.isEmpty = false := List.isEmpty_eq_false.2 hne
    rw [hempty, hwne]
    rw [hlow]
    simpa using hmem
  refine ⟨hval, ?_⟩
  rw [parseTrie_serializeTrie]
  exact hval

theorem build_tokens_are_members_witness :
    ("beef".toList ∈ buildTokens ';' [(1, "beef;onion".toList), (2, "BEEF; Garlic".toList)]) ∧
    (isValidIngredient (buildTrie ';' [(1, "beef;onion".toList), (2, "BEEF; Garlic".toList)])
        "beef".toList = true ∧
      isValidIngredient
        ((parseTrie (serializeTrie
            (buildTrie ';' [(1, "beef;onion".toList), (2, "BEEF; Garlic".toList)]))).getD
          Trie.empty) "beef".toList = true) :=
  ⟨by decide, build_tokens_are_members ';' _ "beef".toList (by decide)⟩

/-- C7: the membership check returns false on the empty token, on every
word whose (lower-cased) character path is absent from the trie, and on
every word whose path ends at a node without the "__ids__" terminal
marker; and whenever it returns true the path exists and ends at a node
carrying the marker. -/
theorem membership_requires_terminal (t : Trie) (w : Word) :
    isValidIngredient t [] = false ∧
    (t.lookupPath (w.map Char.toLower) = none → isValidIngredient t w = false) ∧
    (∀ u, t.lookupPath (w.map Char.toLower) = some u → u.ids = none →
      isValidIngredient t w = false) ∧
    (isValidIngredient t w = true →
      ∃ u, t.lookupPath (w.map Char.toLower) = some u ∧ u.ids.isSome = true) := by
  refine ⟨rfl, ?_, ?_, ?_⟩
  · intro h
    rw [isValidIngredient]
    by_cases hg : (w.isEmpty || t.isEmptyTrie) = true
    · rw [if_pos hg]
    · rw [if_neg hg, isMemberWord, h]
  · intro u hu hids
    rw [isValidIngredient]
    by_cases hg : (w.isEmpty || t.isEmptyTrie) = true
    · rw [if_pos hg]
    · rw [if_neg hg, isMemberWord, hu]
      show u.hasIds = false
      rw [Trie.hasIds, hids]
      rfl
  · intro h
    rw [isValidIngredient] at h
    by_cases hg : (w.isEmpty || t.isEmptyTrie) = true
    · rw [if_pos hg] at h
      exact absurd h (by simp)
    · rw [if_neg hg, isMemberWord] at h
      cases hu : t.lookupPath (w.map Char.toLower) with
      | none => rw [hu] at h; exact absurd h (by simp)
      | some u => rw [hu] at h; exact ⟨u, rfl, h⟩

theorem membership_requires_terminal_witness :
    isValidIngredient (buildTrie ';' [(1, "beef".toList)]) [] = false ∧
    ((buildTrie ';' [(1, "beef".toList)]).lookupPath ("xyz".toList.map Char.toLower) = none →
      isValidIngredient (buildTrie ';' [(1, "beef".toList)]) "xyz".toList = false) ∧
    (∀ u, (buildTrie ';' [(1, "beef".toList)]).lookupPath ("xyz".toList.map Char.toLower)
        = some u → u.ids = none →
      isValidIngredient (buildTrie ';' [(1, "beef".toList)]) "xyz".toList = false) ∧
    (isValidIngredient (buildTrie ';' [(1, "beef".toList)]) "xyz".toList = true →
      ∃ u, (buildTrie ';' [(1, "beef".toList)]).lookupPath ("xyz".toList.map Char.toLower)
        = some u ∧ u.ids.isSome = true) :=
  membership_requires_terminal (buildTrie ';' [(1, "beef".toList)]) "xyz".toList

/-- C8 (counterexample): the claim "`is_member(w)` equals `is_member` of
`w` lower-cased *and stripped*" fails: the source's validity check never
strips its argument, so a leading space makes membership fail even though
the stripped form is a member. -/
theorem validity_no_strip_counterexample :
    isValidIngredient (buildTrie ';' [(1, "beef".toList)]) " beef".toList = false ∧
    isValidIngredient (buildTrie ';' [(1, "beef".toList)])
      (pyStrip ((" beef".toList).map Char.toLower)) = true := by
  decide

/-- C8 (amended): the validity check normalizes its argument by
lower-casing only — `is_member(w)` equals `is_member` of `w` lower-cased —
while stripping leading/trailing whitespace can change the answer. -/
theorem validity_lowercase_only (t : Trie) (w : Word) :
    isValidIngredient t w = isValidIngredient t (w.map Char.toLower) := by
  rw [isValidIngredient, isValidIngredient, mapToLowerIdem]
  have he : (w.map Char.toLower).isEmpty = w.isEmpty := by cases w <;> rfl
  rw [he]

/-- C9: the suggestion query returns the empty list on an empty prefix,
and on any prefix whose lower-cased character path is absent from the
trie; both are ordinary return values of the total function, not
errors. -/
theorem suggest_empty_or_missing (t : Trie) (p : Word) (k : Nat)
    (h : t.lookupPath (p.map Char.toLower) = none) :
    getSuggestions t [] k = [] ∧ getSuggestions t p k = [] := by
  constructor
  · rfl
  · rw [getSuggestions]
    by_cases hg : (p.isEmpty || t.isEmptyTrie) = true
    · rw [if_pos hg]
    · rw [if_neg hg, h]

theorem suggest_empty_or_missing_witness :
    (buildTrie ';' [(1, "beef".toList)]).lookupPath ("z".toList.map Char.toLower) = none ∧
    (getSuggestions (buildTrie ';' [(1, "beef".toList)]) [] 5 = [] ∧
      getSuggestions (buildTrie ';' [(1, "beef".toList)]) "z".toList 5 = []) :=
  ⟨Option.isNone_iff_eq_none.1 (by decide),
    suggest_empty_or_missing (buildTrie ';' [(1, "beef".toList)]) "z".toList 5
      (Option.isNone_iff_eq_none.1 (by decide))⟩

/-- C10: when the lower-cased prefix is itself a member token and the
limit is at least 1, the suggestion list is non-empty and starts with the
lower-cased prefix: the loop tests the node reached by the prefix for the
terminal marker before descending into any child. -/
theorem exact_match_first (t : Trie) (p : Word) (k : Nat)
    (hk : 1 ≤ k) (hp : isValidIngredient t p = true) :
    ∃ rest, getSuggestions t p k = (p.map Char.toLower) :: rest := by
  rw [isValidIngredient] at hp
  by_cases hg : (p.isEmpty || t.isEmptyTrie) = true
  · rw [if_pos hg] at hp
    exact absurd hp (by simp)
  · rw [if_neg hg, isMemberWord] at hp
    cases hu : t.lookupPath (p.map Char.toLower) with
    | none => rw [hu] at hp; exact absurd hp (by simp)
    | some n =>
      rw [hu] at hp
      rw [getSuggestions, if_neg hg, hu]
      simp only [suggestLoop]
      rw [if_pos (show ([] : List Word).length < k by simpa using hk)]
      have hh : n.hasIds = true := hp
      rw [if_pos hh]
      simp only [List.nil_append]
      obtain ⟨s, hs⟩ := suggestLoop_extends k
        ((n.children.map (fun q => (q.2, (p.map Char.toLower) ++ [q.1]))) ++ [])
        [p.map Char.toLower]
      exact ⟨s, hs.symm⟩

theorem exact_match_first_witness :
    (1 ≤ 5) ∧ isValidIngredient (buildTrie ';' [(1, "beef".toList)]) "BEEF".toList = true ∧
    ∃ rest, getSuggestions (buildTrie ';' [(1, "beef".toList)]) "BEEF".toList 5
      = ("BEEF".toList.map Char.toLower) :: rest :=
  ⟨by decide, by decide,
    exact_match_first (buildTrie ';' [(1, "beef".toList)]) "BEEF".toList 5
      (by decide) (by decide)⟩

/-- C2: on a built index, `suggest(p, k)` returns at most `k` tokens,
every returned token starts with the lower-cased form of `p` (the
normalization the query applies to the prefix), and every returned token
is itself a member per `is_member`. -/
theorem suggest_bounded_prefixed_valid (sep : Char) (rows : List (Nat × Word))
    (p : Word) (k : Nat) :
    (getSuggestions (buildTrie sep rows) p k).length ≤ k ∧
    ∀ r ∈ getSuggestions (buildTrie sep rows) p k,
      (p.map Char.toLower) <+: r ∧ isValidIngredient (buildTrie sep rows) r = true := by
  constructor
  · rw [getSuggestions]
    by_cases hg : (p.isEmpty || (buildTrie sep rows).isEmptyTrie) = true
    · rw [if_pos hg]
      simp
    · rw [if_neg hg]
      cases hu : (buildTrie sep rows).lookupPath (p.map Char.toLower) with
      | none => simp
      | some n => exact suggestLoop_length k _ _ (by simp)
  · intro r hr
    rw [getSuggestions] at hr
    by_cases hg : (p.isEmpty || (buildTrie sep rows).isEmptyTrie) = true
    · rw [if_pos hg] at hr
      simp at hr
    · rw [if_neg hg] at hr
      have hgf := hg
      rw [Bool.or_eq_true, not_or] at hgf
      obtain ⟨hp0, hb0⟩ := hgf
      cases hu : (buildTrie sep rows).lookupPath (p.map Char.toLower) with
      | none => rw [hu] at hr; simp at hr
      | some n =>
        rw [hu] at hr
        have hs := suggestLoop_sound (buildTrie sep rows) (buildTrie_wf sep rows)
          (p.map Char.toLower) k [(n, p.map Char.toLower)] []
          (by
            intro e he
            rcases List.mem_singleton.1 he with rfl
            exact ⟨hu, List.prefix_refl _, mapToLowerIdem p⟩)
          (by intro r hr; simp at hr)
          r hr
        obtain ⟨hpre, hmem, hlow⟩ := hs
        refine ⟨hpre, ?_⟩
        rw [isValidIngredient]
        have hrne : r.isEmpty = false := by
          cases hrc : r with
          | nil =>
            rw [hrc] at hpre
            have hpnil : p.map Char.toLower = [] := List.prefix_nil.1 hpre
            rw [List.map_eq_nil_iff] at hpnil
            rw [hpnil] at hp0
            simp at hp0
          | cons a l => rfl
        have hbf : (buildTrie sep rows).isEmptyTrie = false := by
          cases hbb : (buildTrie sep rows).isEmptyTrie
          · rfl
          · exact absurd hbb hb0
        rw [hrne, hbf, hlow]
        simpa using hmem

theorem suggest_bounded_prefixed_valid_witness :
    (getSuggestions (buildTrie ';' [(1, "beef;onion".toList)]) "be".toList 5).length ≤ 5 ∧
    ∀ r ∈ getSuggestions (buildTrie ';' [(1, "beef;onion".toList)]) "be".toList 5,
      ("be".toList.map Char.toLower) <+: r ∧
        isValidIngredient (buildTrie ';' [(1, "beef;onion".toList)]) r = true :=
  suggest_bounded_prefixed_valid ';' [(1, "beef;onion".toList)] "be".toList 5

/-- C6: serialization round-trips — parsing the serialized form of a
freshly-built trie yields exactly the built trie, so the loaded index
answers every membership query and every suggestion query identically to
the index returned by build. -/
theorem serialization_roundtrip_queries (sep : Char) (rows : List (Nat × Word)) :
    parseTrie (serializeTrie (buildTrie sep rows)) = some (buildTrie sep rows) ∧
    ∀ w k,
      isValidIngredient ((parseTrie (serializeTrie (buildTrie sep rows))).getD Trie.empty) w
        = isValidIngredient (buildTrie sep rows) w ∧
      getSuggestions ((parseTrie (serializeTrie (buildTrie sep rows))).getD Trie.empty) w k
        = getSuggestions (buildTrie sep rows) w k := by
  refine ⟨parseTrie_serializeTrie _, ?_⟩
  intro w k
  rw [parseTrie_serializeTrie]
  exact ⟨rfl, rfl⟩

/-- C3 (counterexample): the claim says that a persisted file whose
modification time is older than the corpus's triggers a rebuild and a
write.  The load entry point never compares the two timestamps: with a
stale persisted file (mtime 1) and a newer corpus (mtime 5) holding a new
token, it loads the stale trie, reads no corpus, writes nothing, and the
resulting index does not contain the new corpus's token although a
rebuild would. -/
theorem staleness_policy_counterexample :
    (1 < 5) ∧
    (loadOrGenerate (.stored (buildTrie ';' [(1, "beef".toList)])) 1 5
        (some [(1, "garlic".toList)]) ';').readCorpus = false ∧
    (loadOrGenerate (.stored (buildTrie ';' [(1, "beef".toList)])) 1 5
        (some [(1, "garlic".toList)]) ';').wrote = false ∧
    isValidIngredient
      (loadOrGenerate (.stored (buildTrie ';' [(1, "beef".toList)])) 1 5
        (some [(1, "garlic".toList)]) ';').root "garlic".toList = false ∧
    isValidIngredient (buildTrie ';' [(1, "garlic".toList)]) "garlic".toList = true := by
  refine ⟨by decide, rfl, rfl, by decide, by decide⟩

/-- C3 (amended): the load entry point follows an existence policy, not a
freshness policy — whenever the persisted file exists and deserializes
(regardless of how its modification time compares to the corpus's), it is
loaded with no corpus read and no write; only when the persisted file
does not exist (and the generation arguments are provided) does the entry
point rebuild from the corpus and write a new persisted file. -/
theorem load_gate_existence_policy (pm cm : Nat) (corpus : Option (List (Nat × Word)))
    (sep : Char) :
    (∀ t, loadOrGenerate (.stored t) pm cm corpus sep = ⟨t, false, false⟩) ∧
    (∀ rows, corpus = some rows →
      loadOrGenerate .absent pm cm corpus sep = ⟨buildTrie sep rows, true, true⟩) := by
  constructor
  · intro t
    rfl
  · intro rows h
    rw [h]
    rfl

theorem load_gate_existence_policy_witness :
    (∀ t, loadOrGenerate (.stored t) 1 5 (some [(1, "garlic".toList)]) ';'
      = ⟨t, false, false⟩) ∧
    (∀ rows, (some [(1, "garlic".toList)] : Option (List (Nat × Word))) = some rows →
      loadOrGenerate .absent 1 5 (some [(1, "garlic".toList)]) ';'
        = ⟨buildTrie ';' rows, true, true⟩) :=
  load_gate_existence_policy 1 5 (some [(1, "garlic".toList)]) ';'

/-- C4 (counterexample): the claim says a corrupt persisted file makes the
load entry point rebuild from the corpus.  It does not: with a corrupt
persisted file and the corpus available, the entry point reads no corpus
and leaves the empty trie (the source prints "Trie will be empty."), so a
token the rebuild would contain is not a member. -/
theorem corrupt_fallback_counterexample :
    (loadOrGenerate .corrupt 0 0 (some [(1, "beef".toList)]) ';').readCorpus = false ∧
    (loadOrGenerate .corrupt 0 0 (some [(1, "beef".toList)]) ';').root.isEmptyTrie = true ∧
    isValidIngredient (loadOrGenerate .corrupt 0 0 (some [(1, "beef".toList)]) ';').root
      "beef".toList = false ∧
    isValidIngredient (buildTrie ';' [(1, "beef".toList)]) "beef".toList = true := by
  refine ⟨rfl, rfl, rfl, by decide⟩

/-- C4 (amended): when the persisted file exists but deserializing it
fails, the load entry point swallows the failure and leaves an empty
index — it neither propagates the parse failure nor rebuilds from the
corpus. -/
theorem corrupt_load_yields_empty (pm cm : Nat) (corpus : Option (List (Nat × Word)))
    (sep : Char) :
    loadOrGenerate .corrupt pm cm corpus sep = ⟨Trie.empty, false, false⟩ :=
  rfl

/-- C5 (counterexample): build is not order-independent for suggestion
queries.  The corpora `[(1, "ab"), (2, "ac")]` and `[(2, "ac"), (1,
"ab")]` are permutations of each other, but the suggestion walk follows
dict insertion order, so `suggest("a", 5)` returns `["ab", "ac"]` for the
first and `["ac", "ab"]` for the second — different sequences. -/
theorem build_order_counterexample :
    List.Perm ([(1, "ab".toList), (2, "ac".toList)] : List (Nat × Word))
      [(2, "ac".toList), (1, "ab".toList)] ∧
    getSuggestions (buildTrie ';' [(1, "ab".toList), (2, "ac".toList)]) "a".toList 5 ≠
      getSuggestions (buildTrie ';' [(2, "ac".toList), (1, "ab".toList)]) "a".toList 5 := by
  constructor
  · decide
  · have ha : Char.toLower 'a' = 'a' := by decide
    have h1 : getSuggestions (buildTrie ';' [(1, "ab".toList), (2, "ac".toList)])
        "a".toList 5 = [['a', 'b'], ['a', 'c']] := by
      simp [getSuggestions, suggestLoop, buildTrie, insertRow, rowTokens, pySplit,
        pyStrip, Trie.insert, updChildren, Trie.empty, Trie.lookupPath, Trie.findChild,
        lookupChild, Trie.isEmptyTrie, Trie.hasIds, Trie.ids, Trie.children, addId, ha]
    have h2 : getSuggestions (buildTrie ';' [(2, "ac".toList), (1, "ab".toList)])
        "a".toList 5 = [['a', 'c'], ['a', 'b']] := by
      simp [getSuggestions, suggestLoop, buildTrie, insertRow, rowTokens, pySplit,
        pyStrip, Trie.insert, updChildren, Trie.empty, Trie.lookupPath, Trie.findChild,
        lookupChild, Trie.isEmptyTrie, Trie.hasIds, Trie.ids, Trie.children, addId, ha]
    rw [h1, h2]
    decide

/-- C5 (amended): building from any permutation of the corpus rows yields
an index that answers every `is_member` query identically; the suggestion
query returns the same tokens only up to order, because the order (and,
under a small limit, the selection) follows dict insertion order, which
depends on the row order (see `build_order_counterexample`). -/
theorem build_permutation_membership (sep : Char) (rows1 rows2 : List (Nat × Word))
    (h : List.Perm rows1 rows2) (w : Word) :
    isValidIngredient (buildTrie sep rows1) w
      = isValidIngredient (buildTrie sep rows2) w := by
  have htok : List.Perm (buildTokens sep rows1) (buildTokens sep rows2) :=
    h.flatMap_right (fun r : Nat × Word => rowTokens sep r.2)
  have hemp : (buildTrie sep rows1).isEmptyTrie = (buildTrie sep rows2).isEmptyTrie := by
    refine boolOfIff ?_
    rw [buildTrie_isEmpty, buildTrie_isEmpty]
    constructor
    · intro h1
      exact (h1 ▸ htok.symm).eq_nil
    · intro h2
      exact (h2 ▸ htok).eq_nil
  have hmem : isMemberWord (buildTrie sep rows1) (w.map Char.toLower)
      = isMemberWord (buildTrie sep rows2) (w.map Char.toLower) := by
    refine boolOfIff ?_
    rw [buildTrie_mem, buildTrie_mem]
    exact htok.mem_iff
  rw [isValidIngredient, isValidIngredient, hemp, hmem]

theorem build_permutation_membership_witness :
    List.Perm ([(1, "ab".toList), (2, "ac".toList)] : List (Nat × Word))
      [(2, "ac".toList), (1, "ab".toList)] ∧
    isValidIngredient (buildTrie ';' [(1, "ab".toList), (2, "ac".toList)]) "ab".toList
      = isValidIngredient (buildTrie ';' [(2, "ac".toList), (1, "ab".toList)]) "ab".toList :=
  ⟨by decide,
    build_permutation_membership ';' [(1, "ab".toList), (2, "ac".toList)]
      [(2, "ac".toList), (1, "ab".toList)] (by decide) "ab".toList⟩

